import Mathlib

/-!
# Verification of the Smitten sequence-identifier library

Shallow embedding of `src/rust/src/lib.rs` (the `smitten` Rust crate):
parsing, conversion and normalization of Smitten-format sequence
identifiers, together with theorems settling the specification claims.

Modelling conventions:
* Rust `String`/`&str` values are modelled as `List Char` (`Str`).
* Rust `usize` values are modelled as `Nat`; the digit strings occurring in
  identifiers are far below `2^64`, and the only subtractions performed by
  the source are modelled with explicit underflow checks (an underflow is a
  Rust panic, modelled as `PResult.panic`).
* The regex `\d` class is modelled as the ASCII digits `0`-`9`.
* A Rust `panic!` (from indexing a non-participating capture group, or from
  arithmetic underflow with overflow checks on) is `PResult.panic`; a Rust
  `Err(msg)` is `PResult.err msg`.
-/

set_option maxRecDepth 10000

namespace Smitten

abbrev Str := List Char

/-- Convert a Lean string literal to the `List Char` representation. -/
def strL (s : String) : Str := s.toList

/-- Result of a Rust computation: a normal value, a recoverable `Err`, or a
panic (index/arithmetic failure aborting the program). -/
inductive PResult (α : Type) where
  | panic : PResult α
  | err : Str → PResult α
  | ok : α → PResult α
deriving DecidableEq, Repr

def PResult.isOk {α : Type} : PResult α → Bool
  | .ok _ => true
  | _ => false

def PResult.isErr {α : Type} : PResult α → Bool
  | .err _ => true
  | _ => false

def PResult.isPanic {α : Type} : PResult α → Bool
  | .panic => true
  | _ => false

/-- Model of `enum IDVersion` from the source. -/
inductive IDVersion where
  | Undefined : IDVersion
  | V0 : IDVersion
  | V1 : IDVersion
  | V2 : IDVersion
deriving DecidableEq, Repr

/-- Model of `struct Range { start, end, orientation }`; `end` is a Lean keyword, so the
field is named `end_`. `orientation` is `'+'` or `'-'` (the parser only ever
stores those two). -/
structure Range where
  start : Nat
  end_ : Nat
  orientation : Char
deriving DecidableEq, Repr

/-- Model of `struct Identifier` from the source. -/
structure Identifier where
  assembly_id : Option Str
  sequence_id : Str
  ranges : List Range
  inferred_version : IDVersion
deriving DecidableEq, Repr

/-! ## Characters and digits -/

/-- ASCII decimal digit (the model of the regex `\d` class). -/
def isDig (c : Char) : Bool := 48 ≤ c.toNat && c.toNat ≤ 57

def digVal (c : Char) : Nat := c.toNat - 48

/-- Value of a digit string, as computed by `str::parse::<usize>` (modelled
without the `usize` width bound). -/
def natOfDigits (l : Str) : Nat := l.foldl (fun a c => a * 10 + digVal c) 0

def digitChar (n : Nat) : Char := Char.ofNat (48 + n)

/-- Fuel-indexed decimal rendering; `n + 1` units of fuel always suffice. -/
def natDigitsGo : Nat → Nat → Str
  | 0, _ => []
  | f + 1, n =>
    if n < 10 then [digitChar n]
    else natDigitsGo f (n / 10) ++ [digitChar (n % 10)]

/-- Decimal rendering of a `usize`, as produced by `format!("{}")`. -/
def natDigits (n : Nat) : Str := natDigitsGo (n + 1) n

theorem natDigitsGo_of_lt : ∀ f n, n < f → natDigitsGo f n = natDigits n := by
  intro f
  induction f using Nat.strong_induction_on with
  | _ f ih =>
    intro n hn
    match f with
    | 0 => omega
    | f' + 1 =>
      show natDigitsGo (f' + 1) n = natDigitsGo (n + 1) n
      simp only [natDigitsGo]
      by_cases h10 : n < 10
      · simp [h10]
      · simp only [h10, if_false]
        have hd : n / 10 < n := Nat.div_lt_self (by omega) (by omega)
        rw [ih f' (by omega) (n / 10) (by omega),
            ih n (by omega) (n / 10) (by omega)]

/-- The recurrence satisfied by `natDigits`. -/
theorem natDigits_eq (n : Nat) :
    natDigits n = if n < 10 then [digitChar n]
                  else natDigits (n / 10) ++ [digitChar (n % 10)] := by
  show natDigitsGo (n + 1) n = _
  simp only [natDigitsGo]
  by_cases h10 : n < 10
  · simp [h10]
  · have hd : n / 10 < n := Nat.div_lt_self (by omega) (by omega)
    simp only [h10, if_false]
    rw [natDigitsGo_of_lt n (n / 10) (by omega)]

/-- Model of `char::is_whitespace` (the Unicode `White_Space` property), which is what
`convert_id`'s input guard tests (the explicit `\n`/`\r` tests in the source
are subsumed by it). -/
def rustWS (c : Char) : Bool :=
  [9, 10, 11, 12, 13, 32, 0x85, 0xA0, 0x1680,
   0x2000, 0x2001, 0x2002, 0x2003, 0x2004, 0x2005, 0x2006, 0x2007,
   0x2008, 0x2009, 0x200A, 0x2028, 0x2029, 0x202F, 0x205F, 0x3000].contains c.toNat

/-! ## String helpers shared by the two regex models -/

/-- The suffix of `l` strictly after its last `'\n'` (`l` itself when it has
none).  The source regexes are end-anchored and none of their pieces can match
`'\n'` (`.` excludes it and the literal classes do not contain it), so every
match of `(.*)(range-tail)$` lies entirely within this suffix. -/
def afterLastNL : Str → Str
  | [] => []
  | c :: r => if ('\n' ∈ r) then afterLastNL r else if c = '\n' then r else c :: r

/-- Model of `str::split(':')`: the list of `':'`-separated pieces (never empty; an
empty string yields `[[]]`). -/
def splitColon : Str → List Str
  | [] => [[]]
  | c :: r =>
    match splitColon r with
    | [] => [[c]]
    | h :: t => if c = ':' then [] :: h :: t else (c :: h) :: t

/-- Model of `str::matches(':').count()`. -/
def countColon (l : Str) : Nat := l.countP (fun c => c = ':')

/-! ## The canonical parser (`parse_id`)

Model of the regex `(.*)(([:])(\d+)([-])(\d+)((_)([+\-]))?)$` from
`parse_id`.  Because the pattern is end-anchored, `(.*)` is greedy and none
of the non-`.*` pieces can match `'\n'`, a capture of the whole pattern picks
the *rightmost* `':'` (within the suffix after the last `'\n'`) whose tail
parses as `digits '-' digits` optionally followed by `'_'` and a sign, with
group 1 the text between the last `'\n'` and that `':'`. -/

/-- Parse an entire string as `(\d+)([-])(\d+)((_)([+\-]))?`: start digits,
`'-'`, end digits, optional `'_'`-introduced `'+'`/`'-'` marker.  The digit
runs are maximal automatically (a shorter run would have to be followed by
`'-'`, `'_'` or the string end, none of which is a digit). -/
def tailV2 (l : Str) : Option (Nat × Nat × Option Char) :=
  let a := l.takeWhile isDig
  if a = [] then none
  else
    match l.dropWhile isDig with
    | '-' :: r2 =>
      let b := r2.takeWhile isDig
      if b = [] then none
      else
        match r2.dropWhile isDig with
        | [] => some (natOfDigits a, natOfDigits b, none)
        | ['_', c] =>
          if c = '+' ∨ c = '-' then some (natOfDigits a, natOfDigits b, some c)
          else none
        | _ => none
    | _ => none

/-- Rightmost split of `l` as `prefix ++ ':' :: tail` with `tailV2 tail`
succeeding; returns the prefix (capture group 1) and the parsed tail. -/
def findSplitV2 : Str → Option (Str × Nat × Nat × Option Char)
  | [] => none
  | c :: rest =>
    match findSplitV2 rest with
    | some (pre, parts) => some (c :: pre, parts)
    | none =>
      if c = ':' then
        match tailV2 rest with
        | some parts => some ([], parts)
        | none => none
      else none

theorem findSplitV2_length {l pre parts} (h : findSplitV2 l = some (pre, parts)) :
    pre.length < l.length := by
  induction l generalizing pre parts with
  | nil => simp [findSplitV2] at h
  | cons c rest ih =>
    simp only [findSplitV2] at h
    cases hr : findSplitV2 rest with
    | some pp =>
      rw [hr] at h
      obtain ⟨p1, p2⟩ := pp
      simp only [Option.some.injEq, Prod.mk.injEq] at h
      obtain ⟨h1, h2⟩ := h
      subst h1
      have := ih hr
      simp only [List.length_cons]
      omega
    | none =>
      rw [hr] at h
      by_cases hc : c = ':'
      · simp only [hc, if_true] at h
        cases ht : tailV2 rest with
        | some parts2 => rw [ht] at h; simp only [Option.some.injEq, Prod.mk.injEq] at h
                         obtain ⟨h1, _⟩ := h; subst h1; simp
        | none => rw [ht] at h; simp at h
      · simp [hc] at h

theorem afterLastNL_length_le (l : Str) : (afterLastNL l).length ≤ l.length := by
  induction l with
  | nil => simp [afterLastNL]
  | cons c r ih =>
    simp only [afterLastNL]
    by_cases h : '\n' ∈ r
    · simp only [h, if_true]
      calc (afterLastNL r).length ≤ r.length := ih
        _ ≤ (c :: r).length := by simp
    · simp only [h, if_false]
      by_cases hc : c = '\n' <;> simp [hc]

/-- Fuel-indexed version of the suffix-peeling loop of `parse_id`; each
iteration strictly shortens the string, so `s.length + 1` units of fuel
always suffice (`peelGoV2_of_lt`). -/
def peelGoV2 : Nat → Str → List Range → PResult (List Range × Str)
  | 0, _, _ => .panic
  | f + 1, s, acc =>
    match findSplitV2 (afterLastNL s) with
    | none => .ok (acc, s)
    | some (_, _, _, none) => .panic
    | some (pre, a, b, some σ) =>
      if a > b then .err (strL "parseID: V2 identifiers must have increasing range order!")
      else peelGoV2 f pre (acc ++ [⟨a, b, σ⟩])

/-- The suffix-peeling loop of `parse_id` (the `while let Some(captures)`
loop).  Ranges are pushed in peel order (innermost first), exactly as the
source pushes onto its `ranges` vector.  When the regex matches but the
optional orientation group is absent, the source's `captures[9]` indexes a
non-participating capture group, which panics. -/
def peelV2 (s : Str) (acc : List Range) : PResult (List Range × Str) :=
  peelGoV2 (s.length + 1) s acc

theorem peelGoV2_of_lt : ∀ f s acc, s.length < f → peelGoV2 f s acc = peelV2 s acc := by
  intro f
  induction f using Nat.strong_induction_on with
  | _ f ih =>
    intro s acc hs
    match f with
    | 0 => omega
    | f' + 1 =>
      show peelGoV2 (f' + 1) s acc = peelGoV2 (s.length + 1) s acc
      simp only [peelGoV2]
      cases hm : findSplitV2 (afterLastNL s) with
      | none => rfl
      | some v =>
        obtain ⟨pre, a, b, mk⟩ := v
        cases mk with
        | none => rfl
        | some σ =>
          by_cases hab : a > b
          · simp [hab]
          · simp only [hab, if_false]
            have hlt : pre.length < s.length :=
              Nat.lt_of_lt_of_le (findSplitV2_length hm) (afterLastNL_length_le s)
            rw [ih f' (by omega) pre _ (by omega),
                ih (s.length) (by omega) pre _ (by omega)]

/-- The recurrence satisfied by `peelV2`. -/
theorem peelV2_eq (s : Str) (acc : List Range) :
    peelV2 s acc =
      match findSplitV2 (afterLastNL s) with
      | none => .ok (acc, s)
      | some (_, _, _, none) => .panic
      | some (pre, a, b, some σ) =>
        if a > b then .err (strL "parseID: V2 identifiers must have increasing range order!")
        else peelV2 pre (acc ++ [⟨a, b, σ⟩]) := by
  show peelGoV2 (s.length + 1) s acc = _
  simp only [peelGoV2]
  cases hm : findSplitV2 (afterLastNL s) with
  | none => rfl
  | some v =>
    obtain ⟨pre, a, b, mk⟩ := v
    cases mk with
    | none => rfl
    | some σ =>
      by_cases hab : a > b
      · simp [hab]
      · simp only [hab, if_false]
        have hlt : pre.length < s.length :=
          Nat.lt_of_lt_of_le (findSplitV2_length hm) (afterLastNL_length_le s)
        exact peelGoV2_of_lt s.length pre _ (by omega)

/-- The assembly/sequence split phase of `parse_id` (source lines 346-365):
split the residual text on `':'`; two pieces give `(Some assembly, sequence)`
(the assembly may be empty — the source does not test it), one piece gives
`(None, sequence)`, anything else is an error; an empty `sequence_id` is an
error. -/
def parseSplit (t : Str) : PResult (Option Str × Str) :=
  match splitColon t with
  | [a, q] =>
    if q = [] then .err (strL "parseID: Identifier does not have a sequence identifier!")
    else .ok (some a, q)
  | [q] =>
    if q = [] then .err (strL "parseID: Identifier does not have a sequence identifier!")
    else .ok (none, q)
  | _ => .err (strL "parseID: Identifier contains an invalid number of colon characters.")

/-- Model of `Identifier::parse_id`. -/
def parseId (s : Str) : PResult Identifier :=
  match peelV2 s [] with
  | .panic => .panic
  | .err m => .err m
  | .ok (rs, t) =>
    match parseSplit t with
    | .panic => .panic
    | .err m => .err m
    | .ok (asm, q) => .ok ⟨asm, q, rs.reverse, IDVersion.V2⟩

/-- Model of `Identifier::from_v2`. -/
def fromV2 (s : Str) : PResult Identifier := parseId s

/-! ## Rendering (`impl Display for Identifier`) -/

/-- The `":{start}-{end}_{orientation}"` suffix appended per range. -/
def renderRange (r : Range) : Str :=
  ':' :: (natDigits r.start ++ '-' :: natDigits r.end_ ++ ['_', r.orientation])

def rangesRender : List Range → Str
  | [] => []
  | r :: rest => renderRange r ++ rangesRender rest

/-- Model of `Display for Identifier`: optional assembly prefix, the sequence
id, then each range suffix in stored (outermost-first) order. -/
def renderId (id : Identifier) : Str :=
  (match id.assembly_id with
   | some a => a ++ [':']
   | none => []) ++ id.sequence_id ++ rangesRender id.ranges

-- scratch checks
example : tailV2 (strL "100-200_+") = some (100, 200, some '+') := by decide
example : tailV2 (strL "100-200") = some (100, 200, none) := by decide
example : tailV2 (strL "100-200_x") = none := by decide
example : findSplitV2 (strL "hg38:chr1:100-200_+") =
    some (strL "hg38:chr1", 100, 200, some '+') := by decide
example : parseId (strL "hg38:chr1:100-200_+:10-50_-:1-5_+") =
    .ok ⟨some (strL "hg38"), strL "chr1",
         [⟨100, 200, '+'⟩, ⟨10, 50, '-'⟩, ⟨1, 5, '+'⟩], IDVersion.V2⟩ := by decide
example : parseId (strL "chr1:100-200") = .panic := by decide
example : parseId (strL "a b") =
    .ok ⟨none, strL "a b", [], IDVersion.V2⟩ := by decide
example : parseId (strL ":chr1") =
    .ok ⟨some [], strL "chr1", [], IDVersion.V2⟩ := by decide
example : renderId ⟨some (strL "hg38"), strL "chr1", [⟨100, 200, '+'⟩], IDVersion.V2⟩
    = strL "hg38:chr1:100-200_+" := by decide

/-! ## The grammar detector/converter (`convert_id`)

Model of the regex `(.*)(([:_])(\d+)([-_])(\d+)((_)([R+\-]))?)$`: the lenient
tail pattern admitting either grammar's separators.  Greediness again forces
the rightmost separator position with a parsing tail, and maximal digit runs
(a shorter digit run would have to be followed by a character that is not a
digit). -/

/-- Parse an entire string as `(\d+)([-_])(\d+)((_)([R+\-]))?`, returning
`(start, sep2, end, marker)`. -/
def tailCv (l : Str) : Option (Nat × Char × Nat × Option Char) :=
  let a := l.takeWhile isDig
  if a = [] then none
  else
    match l.dropWhile isDig with
    | s2 :: r2 =>
      if s2 = '-' ∨ s2 = '_' then
        let b := r2.takeWhile isDig
        if b = [] then none
        else
          match r2.dropWhile isDig with
          | [] => some (natOfDigits a, s2, natOfDigits b, none)
          | ['_', c] =>
            if c = 'R' ∨ c = '+' ∨ c = '-' then
              some (natOfDigits a, s2, natOfDigits b, some c)
            else none
          | _ => none
      else none
    | _ => none

/-- Rightmost split of `l` as `prefix ++ sep1 :: tail` with `sep1 ∈ {':','_'}`
and `tailCv tail` succeeding; returns
`(prefix, sep1, start, sep2, end, marker)`. -/
def findSplitCv : Str → Option (Str × Char × Nat × Char × Nat × Option Char)
  | [] => none
  | c :: rest =>
    match findSplitCv rest with
    | some (pre, parts) => some (c :: pre, parts)
    | none =>
      if c = ':' ∨ c = '_' then
        match tailCv rest with
        | some (a, s2, b, mk) => some ([], c, a, s2, b, mk)
        | none => none
      else none

instance : DecidableEq (Str × Char × Nat × Char × Nat × Option Char) :=
  instDecidableEqProd

theorem findSplitCv_length {l pre parts} (h : findSplitCv l = some (pre, parts)) :
    pre.length < l.length := by
  induction l generalizing pre parts with
  | nil => simp [findSplitCv] at h
  | cons c rest ih =>
    simp only [findSplitCv] at h
    cases hr : findSplitCv rest with
    | some pp =>
      rw [hr] at h
      obtain ⟨p1, p2⟩ := pp
      simp only [Option.some.injEq, Prod.mk.injEq] at h
      obtain ⟨h1, _⟩ := h
      subst h1
      have := ih hr
      simp only [List.length_cons]
      omega
    | none =>
      rw [hr] at h
      by_cases hc : c = ':' ∨ c = '_'
      · simp only [hc, if_true] at h
        cases ht : tailCv rest with
        | some parts2 =>
          rw [ht] at h
          obtain ⟨x1, x2, x3, x4⟩ := parts2
          simp only [Option.some.injEq, Prod.mk.injEq] at h
          obtain ⟨h1, _⟩ := h; subst h1; simp
        | none => rw [ht] at h; simp at h
      · simp [hc] at h

/-- Grammar classification of one peeled suffix (source lines 226-237). -/
def classifyCv (sep1 sep2 : Char) (mk : Option Char) : IDVersion :=
  if sep1 = ':' ∧ sep2 = '-' ∧ mk.isSome then IDVersion.V2
  else if sep1 = ':' ∧ sep2 = '-' then IDVersion.V1
  else IDVersion.V0

/-- Orientation from the optional marker group (source line 219):
absent means `'+'`, `"R"` means `'-'`, otherwise the marker character. -/
def orientOf (mk : Option Char) : Char :=
  match mk with
  | none => '+'
  | some c => if c = 'R' then '-' else c

/-- One suffix's ordering/orientation rule (source lines 247-257), after the
`zbho` start adjustment.  `none` encodes the `DecreasingRange` error. -/
def orderRange (fmt : IDVersion) (a b : Nat) (orient : Char) :
    Option (Nat × Nat × Char) :=
  match fmt with
  | IDVersion.V0 | IDVersion.V2 =>
    if a > b then none else some (a, b, orient)
  | IDVersion.V1 =>
    if a > b then some (b, a, '-') else some (a, b, '+')
  | IDVersion.Undefined => some (a, b, orient)

/-- Fuel-indexed version of `convert_id`'s peeling loop. -/
def convertGo : Nat → Bool → Str → Option IDVersion → List Range →
    PResult (List Range × Str × Option IDVersion)
  | 0, _, _, _, _ => .panic
  | f + 1, zbho, s, inferred, acc =>
    match findSplitCv (afterLastNL s) with
    | none => .ok (acc, s, inferred)
    | some (pre, sep1, a0, sep2, b, mk) =>
      let a := if zbho then a0 + 1 else a0
      let fmt := classifyCv sep1 sep2 mk
      match inferred with
      | some v =>
        if v ≠ fmt then .ok (acc, s, some v)
        else
          match orderRange fmt a b (orientOf mk) with
          | none => .err (strL "convertID: identifier must have increasing range order!")
          | some (os, oe, oσ) => convertGo f zbho pre (some v) (acc ++ [⟨os, oe, oσ⟩])
      | none =>
        match orderRange fmt a b (orientOf mk) with
        | none => .err (strL "convertID: identifier must have increasing range order!")
        | some (os, oe, oσ) => convertGo f zbho pre (some fmt) (acc ++ [⟨os, oe, oσ⟩])

/-- The suffix-peeling loop of `convert_id` (the `while let Some(captures)`
loop, source lines 216-266), with the format-consistency `break` modelled as
returning the current state unchanged. -/
def convertLoop (zbho : Bool) (s : Str) (inferred : Option IDVersion)
    (acc : List Range) : PResult (List Range × Str × Option IDVersion) :=
  convertGo (s.length + 1) zbho s inferred acc

theorem convertGo_of_lt : ∀ f zbho s inferred acc, s.length < f →
    convertGo f zbho s inferred acc = convertLoop zbho s inferred acc := by
  intro f
  induction f using Nat.strong_induction_on with
  | _ f ih =>
    intro zbho s inferred acc hs
    match f with
    | 0 => omega
    | f' + 1 =>
      show convertGo (f' + 1) zbho s inferred acc
          = convertGo (s.length + 1) zbho s inferred acc
      simp only [convertGo]
      cases hm : findSplitCv (afterLastNL s) with
      | none => rfl
      | some v =>
        obtain ⟨pre, sep1, a0, sep2, b, mk⟩ := v
        dsimp only
        have hlt : pre.length < s.length :=
          Nat.lt_of_lt_of_le (findSplitCv_length hm) (afterLastNL_length_le s)
        cases inferred with
        | some v0 =>
          dsimp only
          by_cases hv : v0 ≠ classifyCv sep1 sep2 mk
          · simp [hv]
          · simp only [hv, if_false, ite_false, reduceIte]
            cases ho : orderRange (classifyCv sep1 sep2 mk)
                (if zbho then a0 + 1 else a0) b (orientOf mk) with
            | none => rfl
            | some o =>
              obtain ⟨os, oe, oσ⟩ := o
              dsimp only
              rw [ih f' (by omega) zbho pre _ _ (by omega),
                  ih s.length (by omega) zbho pre _ _ (by omega)]
        | none =>
          dsimp only
          cases ho : orderRange (classifyCv sep1 sep2 mk)
              (if zbho then a0 + 1 else a0) b (orientOf mk) with
          | none => rfl
          | some o =>
            obtain ⟨os, oe, oσ⟩ := o
            dsimp only
            rw [ih f' (by omega) zbho pre _ _ (by omega),
                ih s.length (by omega) zbho pre _ _ (by omega)]

/-- The recurrence satisfied by `convertLoop`. -/
theorem convertLoop_eq (zbho : Bool) (s : Str) (inferred : Option IDVersion)
    (acc : List Range) :
    convertLoop zbho s inferred acc =
      match findSplitCv (afterLastNL s) with
      | none => .ok (acc, s, inferred)
      | some (pre, sep1, a0, sep2, b, mk) =>
        let a := if zbho then a0 + 1 else a0
        let fmt := classifyCv sep1 sep2 mk
        match inferred with
        | some v =>
          if v ≠ fmt then .ok (acc, s, some v)
          else
            match orderRange fmt a b (orientOf mk) with
            | none => .err (strL "convertID: identifier must have increasing range order!")
            | some (os, oe, oσ) => convertLoop zbho pre (some v) (acc ++ [⟨os, oe, oσ⟩])
        | none =>
          match orderRange fmt a b (orientOf mk) with
          | none => .err (strL "convertID: identifier must have increasing range order!")
          | some (os, oe, oσ) => convertLoop zbho pre (some fmt) (acc ++ [⟨os, oe, oσ⟩]) := by
  show convertGo (s.length + 1) zbho s inferred acc = _
  simp only [convertGo]
  cases hm : findSplitCv (afterLastNL s) with
  | none => rfl
  | some v =>
    obtain ⟨pre, sep1, a0, sep2, b, mk⟩ := v
    dsimp only
    have hlt : pre.length < s.length :=
      Nat.lt_of_lt_of_le (findSplitCv_length hm) (afterLastNL_length_le s)
    cases inferred with
    | some v0 =>
      dsimp only
      by_cases hv : v0 ≠ classifyCv sep1 sep2 mk
      · simp [hv]
      · simp only [hv, if_false, ite_false, reduceIte]
        cases ho : orderRange (classifyCv sep1 sep2 mk)
            (if zbho then a0 + 1 else a0) b (orientOf mk) with
        | none => rfl
        | some o =>
          obtain ⟨os, oe, oσ⟩ := o
          dsimp only
          exact convertGo_of_lt s.length zbho pre _ _ (by omega)
    | none =>
      dsimp only
      cases ho : orderRange (classifyCv sep1 sep2 mk)
          (if zbho then a0 + 1 else a0) b (orientOf mk) with
      | none => rfl
      | some o =>
        obtain ⟨os, oe, oσ⟩ := o
        dsimp only
        exact convertGo_of_lt s.length zbho pre _ _ (by omega)

/-- The assembly/sequence split of `convert_id` (source lines 272-282): the
residual text must contain exactly one `':'` with both sides non-empty, or no
`':'` and be non-empty. -/
def convertSplit (t : Str) : PResult (Option Str × Str) :=
  match countColon t, splitColon t with
  | 1, [a, q] =>
    if a ≠ [] ∧ q ≠ [] then .ok (some a, q)
    else .err (strL "convertID: Identifier contains an invalid assembly+sequence structure.")
  | 0, [q] =>
    if q ≠ [] then .ok (none, q)
    else .err (strL "convertID: Identifier contains an invalid assembly+sequence structure.")
  | _, _ => .err (strL "convertID: Identifier contains an invalid assembly+sequence structure.")

/-- The right-to-left validation and re-rendering loop of `convert_id`
(source lines 290-308): called on the reversed (outermost-first) range list,
it rejects zero coordinates, checks each nested range against the containing
range's length, and appends the canonical suffix per range. -/
def checkRender : List Range → Option Nat → Str → PResult Str
  | [], _, v => .ok v
  | r :: rest, parent, v =>
    if r.start = 0 ∨ r.end_ = 0 then
      .err (strL "convertID: Invalid range in a one-based fully-closed coordinate system.")
    else
      match parent with
      | some pl =>
        if r.start > pl ∨ r.end_ > pl then
          .err (strL "convertID: Sequence sub-range is outside the bounds of the parent range length.")
        else checkRender rest (some (r.end_ - r.start + 1)) (v ++ renderRange r)
      | none => checkRender rest (some (r.end_ - r.start + 1)) (v ++ renderRange r)

/-- Model of `Identifier::convert_id`. -/
def convertId (s : Str) (zbho : Bool) : PResult (Str × IDVersion) :=
  if s.any rustWS then
    .err (strL "convertID: Identifier contains a space or a line termination character!")
  else
    match convertLoop zbho s none [] with
    | .panic => .panic
    | .err m => .err m
    | .ok (rs, rem, inferred) =>
      let inferredF := if rs = [] then some IDVersion.Undefined else inferred
      match convertSplit rem with
      | .panic => .panic
      | .err m => .err m
      | .ok (asm, seq) =>
        let base : Str :=
          match asm with
          | some a => a ++ ':' :: seq
          | none => seq
        match checkRender rs.reverse none base with
        | .panic => .panic
        | .err m => .err m
        | .ok v2 => .ok (v2, inferredF.getD IDVersion.Undefined)

/-- Model of `Identifier::from_unknown_format`. -/
def fromUnknownFormat (s : Str) (zbho : Bool) : PResult (Identifier × IDVersion) :=
  match convertId s zbho with
  | .panic => .panic
  | .err m => .err m
  | .ok (v2, ver) =>
    match parseId v2 with
    | .panic => .panic
    | .err m => .err m
    | .ok id => .ok (id, ver)

/-- Model of `Identifier::from_v0`. -/
def fromV0 (s : Str) : PResult Identifier :=
  match convertId s false with
  | .panic => .panic
  | .err m => .err m
  | .ok (v2, _) => parseId v2

/-- Model of `Identifier::from_v1` (textually identical to `from_v0` in the source). -/
def fromV1 (s : Str) : PResult Identifier :=
  match convertId s false with
  | .panic => .panic
  | .err m => .err m
  | .ok (v2, _) => parseId v2

/-! ## The normalizer (`normalize_id`) -/

/-- Orientation composition as written in the source (lines 404-410):
`('-','-') ↦ '+'`; otherwise `'-'` when the ancestor is `'-'` or the current
orientation is `'+'`; otherwise the current orientation. -/
def composeOrient (ro σ : Char) : Char :=
  if ro = '-' ∧ σ = '-' then '+'
  else if ro = '-' ∨ σ = '+' then '-'
  else σ

/-- The fold of `normalize_id` over the ancestor ranges
(`self.ranges.iter().rev().skip(1)`, innermost ancestor first).  The `usize`
subtractions `range.end - start_idx` / `range.start + start_idx - 1` panic on
underflow, modelled by the explicit guards. -/
def normFold : List Range → Nat × Nat × Char → PResult (Nat × Nat × Char)
  | [], st => .ok st
  | r :: rest, (s, e, σ) =>
    if r.orientation = '-' then
      if s > r.end_ ∨ e > r.end_ then .panic
      else normFold rest (r.end_ - s + 1, r.end_ - e + 1, composeOrient r.orientation σ)
    else
      if r.start + s = 0 ∨ r.start + e = 0 then .panic
      else normFold rest (r.start + s - 1, r.start + e - 1, composeOrient r.orientation σ)

/-- The assembly/sequence prefix built by both branches of `normalize_id`. -/
def normBase (id : Identifier) : Str :=
  (match id.assembly_id with
   | some a => a ++ [':']
   | none => []) ++ id.sequence_id

/-- Model of `Identifier::normalize_id`. -/
def normalizeId (id : Identifier) : PResult Str :=
  match id.ranges.reverse with
  | [] => .ok (normBase id)
  | inner :: ancestors =>
    match normFold ancestors (inner.start, inner.end_, inner.orientation) with
    | .panic => .panic
    | .err m => .err m
    | .ok (s, e, σ) =>
      .ok (normBase id ++ ':' ::
        (if s < e then natDigits s ++ '-' :: natDigits e ++ ['_', σ]
         else natDigits e ++ '-' :: natDigits s ++ ['_', σ]))

/-- Model of `Identifier::normalize`. -/
def normalize (id : Identifier) : PResult Identifier :=
  match normalizeId id with
  | .panic => .panic
  | .err m => .err m
  | .ok v2 => parseId v2

-- scratch checks against the source's own test cases
example : (fromV0 (strL "chr1_100_200")).isOk = true := by decide
example : convertId (strL "chr1_100_200") false
    = .ok (strL "chr1:100-200_+", IDVersion.V0) := by decide
example : convertId (strL "seq_100_200_R") false
    = .ok (strL "seq:100-200_-", IDVersion.V0) := by decide
example : convertId (strL "chr1:200-1") false
    = .ok (strL "chr1:1-200_-", IDVersion.V1) := by decide
example : convertId (strL "chr_1_100_200_10_20_R") false
    = .ok (strL "chr_1:100-200_+:10-20_-", IDVersion.V0) := by decide
example : convertId (strL "hg38:chr1:100-200_+:10-50_-:1-5_+") false
    = .ok (strL "hg38:chr1:100-200_+:10-50_-:1-5_+", IDVersion.V2) := by decide
example : convertId (strL "chromosome___:0-10") true
    = .ok (strL "chromosome___:1-10_+", IDVersion.V1) := by decide
example : (convertId (strL "chr_1_100_200_150_200_R") false).isErr = true := by decide
example : convertId (strL "chr1") false
    = .ok (strL "chr1", IDVersion.Undefined) := by decide
example : convertId (strL "JANCRE010000006.1_5563658_5564462_R:1-458_+") false
    = .ok (strL "JANCRE010000006.1_5563658_5564462_R:1-458_+", IDVersion.V2) := by decide
example : (convertId (strL "seq1_ 1_2") false).isErr = true := by decide
example :
    (match parseId (strL "hg38:chr1:100-200_+:10-50_-:1-5_+") with
     | .ok id => normalizeId id
     | _ => .panic)
    = .ok (strL "hg38:chr1:145-149_-") := by decide

-- scratch checks
example : natOfDigits (strL "500") = 500 := by decide
example : natDigits 500 = strL "500" := by decide
example : splitColon (strL "a:b") = [strL "a", strL "b"] := by decide
example : splitColon (strL ":chr1") = [[], strL "chr1"] := by decide
example : afterLastNL (strL "ab\ncd") = strL "cd" := by decide

/-! ## Invariant predicates used by the claims -/

/-- Every range has a positive start and `start ≤ end` (hence positive end):
the well-formedness that `convert_id`'s validation establishes. -/
def rangePos (l : List Range) : Prop := ∀ r ∈ l, 1 ≤ r.start ∧ r.start ≤ r.end_

instance rangePos_decidable (l : List Range) : Decidable (rangePos l) :=
  List.decidableBAll _ l

/-- The nesting-bounds invariant on an outermost-first chain: each range's
`end` fits within the length of the containing (previous) range. -/
def BoundsInvariant (l : List Range) : Prop :=
  ∀ i, (h : i + 1 < l.length) →
    (l.get ⟨i + 1, h⟩).end_ ≤
      (l.get ⟨i, Nat.lt_of_succ_lt h⟩).end_ - (l.get ⟨i, Nat.lt_of_succ_lt h⟩).start + 1

/-- Adjacency form of the bounds invariant, for proofs by induction. -/
def boundsPair (outer inner : Range) : Prop :=
  inner.end_ ≤ outer.end_ - outer.start + 1

instance boundsPair_decidable (o i : Range) : Decidable (boundsPair o i) :=
  inferInstanceAs (Decidable (i.end_ ≤ o.end_ - o.start + 1))

theorem boundsInvariant_iff_chain' (l : List Range) :
    BoundsInvariant l ↔ l.Chain' boundsPair := by
  rw [List.chain'_iff_get]
  constructor
  · intro h i hi
    exact h i (by omega)
  · intro h i hi
    exact h i (by omega)

/-- Executable adjacency check for the bounds invariant. -/
def boundsChainB : List Range → Bool
  | r1 :: r2 :: rest =>
    decide (r2.end_ ≤ r1.end_ - r1.start + 1) && boundsChainB (r2 :: rest)
  | _ => true

theorem boundsChainB_iff_chain' (l : List Range) :
    boundsChainB l = true ↔ l.Chain' boundsPair := by
  match l with
  | [] => simp [boundsChainB]
  | [r] => simp [boundsChainB]
  | r1 :: r2 :: rest =>
    rw [List.chain'_cons, ← boundsChainB_iff_chain' (r2 :: rest)]
    simp [boundsChainB, boundsPair]

instance boundsInvariant_decidable (l : List Range) : Decidable (BoundsInvariant l) :=
  decidable_of_iff _
    ((boundsChainB_iff_chain' l).trans (boundsInvariant_iff_chain' l).symm)

/-! ## Concrete identifiers used by counterexamples and witnesses -/

/-- Result of `from_v2("chr1:100-200_+:10-30_+")`: a chain of two forward ranges. -/
def idFwdFwd : Identifier :=
  ⟨none, strL "chr1", [⟨100, 200, '+'⟩, ⟨10, 30, '+'⟩], IDVersion.V2⟩

/-- Result of `from_v2("chr1:10-20_-:100-200_+")`: an inner range exceeding its parent's
bounds (the parser does not bounds-check). -/
def idUnbounded : Identifier :=
  ⟨none, strL "chr1", [⟨10, 20, '-'⟩, ⟨100, 200, '+'⟩], IDVersion.V2⟩

/-- The scenario identifier `from_v2("hg38:chr1:100-200_+:10-50_-:1-5_+")`. -/
def idScenario : Identifier :=
  ⟨some (strL "hg38"), strL "chr1",
   [⟨100, 200, '+'⟩, ⟨10, 50, '-'⟩, ⟨1, 5, '+'⟩], IDVersion.V2⟩

/-- What `from_unknown_format("x:1-2_+:5_500", false)` actually returns: the
converter peels only `_5_500` (V0), breaks on the differently-classified
`:1-2_+`, stores `1-2_+` inside the *sequence text* of its canonical
rendering, and the final `parse_id` then re-peels it as an extra outer
range that was never bounds-checked. -/
def idLeaked : Identifier :=
  ⟨none, strL "x", [⟨1, 2, '+'⟩, ⟨5, 500, '+'⟩], IDVersion.V2⟩

/-! ## Claim theorems -/

/-- C1: the claim states orientation composition is exclusive-or, so that a
chain of two forward ranges normalizes to forward orientation.  The code's
composition (source lines 404-410) instead maps an all-forward chain to
reverse: `composeOrient '+' '+' = '-'`, and normalizing
`chr1:100-200_+:10-30_+` renders `chr1:109-129_-` (reverse orientation), not
forward as the exclusive-or law requires.  The identifier grammar documented
at the top of the source file calls such a chain "forward strand of ...
forward strand", so the code contradicts its own documentation: a code bug.
-/
theorem c1_forward_forward_normalizes_reverse :
    composeOrient '+' '+' = '-' ∧
    parseId (strL "chr1:100-200_+:10-30_+") = .ok idFwdFwd ∧
    normalizeId idFwdFwd = .ok (strL "chr1:109-129_-") := by decide

/-- C3: the claim states `from_v2` recognizes a trailing range suffix only
with the mandatory orientation marker and never crashes.  But the regex in
`parse_id` (source line 324) makes the marker group *optional*
(`((_)([+\-]))?`), and line 333 then indexes `captures[9]` unconditionally,
which panics when the group did not participate: `from_v2("chr1:100-200")`
crashes.  The spec's "marker is mandatory" is clearly the intent: a code
bug. -/
theorem c3_markerless_tail_panics :
    tailV2 (strL "100-200") = some (100, 200, none) ∧
    fromV2 (strL "chr1:100-200") = .panic := by decide

/-- C2 counterexample: the claim says `normalize` never underflows even when
a parsed chain's inner ranges exceed their parent's bounds; but on the
`from_v2`-accepted identifier `chr1:10-20_-:100-200_+` the reflect step
computes `range.end - start_idx` = `20 - 100`, which underflows (a panic
with overflow checks on). -/
theorem c2_normalize_panics_on_unchecked_chain :
    fromV2 (strL "chr1:10-20_-:100-200_+") = .ok idUnbounded ∧
    normalizeId idUnbounded = .panic := by decide

/-- C5 counterexample: the claim says every parsing entry point, including
`from_v2`, rejects inputs containing whitespace; but `parse_id` performs no
whitespace check at all, and `from_v2("a b")` succeeds. -/
theorem c5_fromV2_accepts_space :
    rustWS ' ' = true ∧
    fromV2 (strL "a b") = .ok ⟨none, strL "a b", [], IDVersion.V2⟩ := by decide

/-- C6 counterexample: the claim says every successful `from_unknown`
conversion satisfies the nesting-bounds invariant.  On `"x:1-2_+:5_500"` the
converter peels only the V0 suffix `_5_500`, breaks on the
differently-classified `:1-2_+` (leaving it in the sequence text), renders
`"x:1-2_+:5-500_+"`, and the final parse re-peels `:1-2_+` as an outer
range; the returned chain `[(1,2,+), (5,500,+)]` violates the invariant
(`500 > 2 - 1 + 1`). -/
theorem c6_bounds_invariant_violated :
    fromUnknownFormat (strL "x:1-2_+:5_500") false = .ok (idLeaked, IDVersion.V0) ∧
    ¬ BoundsInvariant idLeaked.ranges := by
  refine ⟨by decide, ?_⟩
  intro h
  have := h 0 (by decide)
  simp [idLeaked] at this

/-- C7 counterexample: the claim says every range returned by any successful
entry point, including `from_v2`, has positive coordinates; but `parse_id`
never checks for zero, and `from_v2("chr1:0-5_+")` returns a range with
`start = 0`. -/
theorem c7_fromV2_zero_start :
    fromV2 (strL "chr1:0-5_+")
      = .ok ⟨none, strL "chr1", [⟨0, 5, '+'⟩], IDVersion.V2⟩ := by decide

/-- C8 counterexample: the claim says a remaining text with exactly one `':'`
and an empty side (such as `":chr1"`) fails with `MalformedAssemblySequence`;
but `parse_id` accepts two segments unconditionally (source line 348) and
returns an *empty* assembly id for `":chr1"`. -/
theorem c8_empty_assembly_accepted :
    fromV2 (strL ":chr1")
      = .ok ⟨some [], strL "chr1", [], IDVersion.V2⟩ := by decide

/-! ## Whitespace rejection (C5) -/

/-- C5 (amended): the three entry points that go through `convert_id` reject
every input containing a whitespace character (`from_v2` does not — see the
counterexample). -/
theorem c5_legacy_entry_points_reject_whitespace (s : Str) (zbho : Bool)
    (h : ∃ c ∈ s, rustWS c = true) :
    (convertId s zbho).isErr = true ∧ (fromUnknownFormat s zbho).isErr = true ∧
    (fromV0 s).isErr = true ∧ (fromV1 s).isErr = true := by
  have hany : ∀ z : Bool, convertId s z
      = .err (strL "convertID: Identifier contains a space or a line termination character!") := by
    intro z
    have : s.any rustWS = true := by
      rw [List.any_eq_true]
      obtain ⟨c, hc, hw⟩ := h
      exact ⟨c, hc, hw⟩
    simp [convertId, this]
  refine ⟨?_, ?_, ?_, ?_⟩
  · rw [hany zbho]; rfl
  · unfold fromUnknownFormat; rw [hany zbho]; rfl
  · unfold fromV0; rw [hany false]; rfl
  · unfold fromV1; rw [hany false]; rfl

theorem c5_witness :
    (∃ c ∈ strL "a b", rustWS c = true) ∧
    ((convertId (strL "a b") false).isErr = true ∧
     (fromUnknownFormat (strL "a b") false).isErr = true ∧
     (fromV0 (strL "a b")).isErr = true ∧
     (fromV1 (strL "a b")).isErr = true) :=
  ⟨by decide, c5_legacy_entry_points_reject_whitespace (strL "a b") false (by decide)⟩

/-! ## The assembly/sequence split of the canonical parser (C8) -/

/-- C8 (amended): after peeling, `parse_id`'s split errors exactly on three
or more `':'`-separated segments or on an empty sequence side; a two-segment
split with an empty assembly half is accepted (with an empty assembly id). -/
theorem c8_split_error_conditions (t : Str) :
    (3 ≤ (splitColon t).length → (parseSplit t).isErr = true) ∧
    (∀ a q, splitColon t = [a, q] → q ≠ [] → parseSplit t = .ok (some a, q)) ∧
    (∀ a, splitColon t = [a, []] → (parseSplit t).isErr = true) ∧
    (splitColon t = [[]] → (parseSplit t).isErr = true) := by
  refine ⟨?_, ?_, ?_, ?_⟩
  · intro h3
    rcases hsp : splitColon t with _ | ⟨x, _ | ⟨y, _ | ⟨z, rest⟩⟩⟩ <;>
      rw [hsp] at h3 <;> simp at h3
    simp [parseSplit, hsp, PResult.isErr]
  · intro a q hsp hq
    simp [parseSplit, hsp, hq]
  · intro a hsp
    simp [parseSplit, hsp, PResult.isErr]
  · intro hsp
    simp [parseSplit, hsp, PResult.isErr]

theorem c8_witness :
    splitColon (strL ":chr1") = [[], strL "chr1"] ∧
    parseSplit (strL ":chr1") = .ok (some [], strL "chr1") :=
  ⟨by decide, (c8_split_error_conditions (strL ":chr1")).2.1 [] (strL "chr1")
    (by decide) (by decide)⟩

/-! ## Grammar-consistency break in the converter (C10) -/

/-- C10: once the chain's grammar is fixed (`inferred = some v`), a trailing
suffix that classifies differently stops the peeling loop: the loop returns
successfully (no error) with the accumulated ranges unchanged and the whole
remaining text — still containing that differently-classified suffix — left
to become the assembly/sequence part. -/
theorem c10_inconsistent_suffix_stops_peeling (zbho : Bool) (s : Str)
    (v : IDVersion) (acc : List Range) (pre : Str) (sep1 : Char) (a : Nat)
    (sep2 : Char) (b : Nat) (mk : Option Char)
    (hm : findSplitCv (afterLastNL s) = some (pre, sep1, a, sep2, b, mk))
    (hv : v ≠ classifyCv sep1 sep2 mk) :
    convertLoop zbho s (some v) acc = .ok (acc, s, some v) := by
  rw [convertLoop_eq, hm]
  dsimp only
  simp [hv]

theorem c10_witness :
    findSplitCv (afterLastNL (strL "JANCRE010000006.1_5563658_5564462_R"))
      = some (strL "JANCRE010000006.1", '_', 5563658, '_', 5564462, some 'R') ∧
    IDVersion.V2 ≠ classifyCv '_' '_' (some 'R') ∧
    convertLoop false (strL "JANCRE010000006.1_5563658_5564462_R")
        (some IDVersion.V2) [⟨1, 458, '+'⟩]
      = .ok ([⟨1, 458, '+'⟩], strL "JANCRE010000006.1_5563658_5564462_R",
             some IDVersion.V2) :=
  ⟨by decide, by decide,
   c10_inconsistent_suffix_stops_peeling false
     (strL "JANCRE010000006.1_5563658_5564462_R") IDVersion.V2 [⟨1, 458, '+'⟩]
     (strL "JANCRE010000006.1") '_' 5563658 '_' 5564462 (some 'R')
     (by decide) (by decide)⟩

/-! ## The converter's validated chain (C6, C7 amended) -/

theorem checkRender_ok_pos : ∀ (l : List Range) (parent : Option Nat) (v out : Str),
    checkRender l parent v = .ok out → ∀ r ∈ l, 1 ≤ r.start ∧ 1 ≤ r.end_ := by
  intro l
  induction l with
  | nil => intro parent v out _ r hr; simp at hr
  | cons r rest ih =>
    intro parent v out hok r' hr'
    unfold checkRender at hok
    by_cases hz : r.start = 0 ∨ r.end_ = 0
    · simp [hz] at hok
    · simp only [hz, if_false, ite_false, reduceIte] at hok
      push_neg at hz
      rcases List.mem_cons.mp hr' with rfl | hr'
      · omega
      · cases parent with
        | none => exact ih _ _ _ hok r' hr'
        | some pl =>
          by_cases hb : r.start > pl ∨ r.end_ > pl
          · simp [hb] at hok
          · simp only [hb, if_false, ite_false, reduceIte] at hok
            exact ih _ _ _ hok r' hr'

theorem checkRender_ok_head : ∀ (r2 : Range) (rest : List Range) (pl : Nat)
    (v out : Str), checkRender (r2 :: rest) (some pl) v = .ok out → r2.end_ ≤ pl := by
  intro r2 rest pl v out hok
  unfold checkRender at hok
  by_cases hz : r2.start = 0 ∨ r2.end_ = 0
  · simp [hz] at hok
  · simp only [hz, if_false, ite_false, reduceIte] at hok
    by_cases hb : r2.start > pl ∨ r2.end_ > pl
    · simp [hb] at hok
    · omega

theorem checkRender_ok_chain : ∀ (l : List Range) (parent : Option Nat) (v out : Str),
    checkRender l parent v = .ok out → l.Chain' boundsPair := by
  intro l
  induction l with
  | nil => intro _ _ _ _; exact List.chain'_nil
  | cons r rest ih =>
    intro parent v out hok
    have hrec : ∃ v', checkRender rest (some (r.end_ - r.start + 1)) v' = .ok out := by
      unfold checkRender at hok
      by_cases hz : r.start = 0 ∨ r.end_ = 0
      · simp [hz] at hok
      · simp only [hz, if_false, ite_false, reduceIte] at hok
        cases parent with
        | none => exact ⟨_, hok⟩
        | some pl =>
          by_cases hb : r.start > pl ∨ r.end_ > pl
          · simp [hb] at hok
          · simp only [hb, if_false, ite_false, reduceIte] at hok
            exact ⟨_, hok⟩
    obtain ⟨v', hrec⟩ := hrec
    rw [List.chain'_cons']
    refine ⟨?_, ih _ _ _ hrec⟩
    intro r2 hr2
    cases rest with
    | nil => simp at hr2
    | cons r2' rest2 =>
      simp only [List.head?_cons, Option.mem_def, Option.some.injEq] at hr2
      subst hr2
      exact checkRender_ok_head _ _ _ _ _ hrec

/-- Extract the `checkRender` call from a successful `convertId`. -/
theorem convertId_ok_checkRender (s : Str) (zbho : Bool) (out : Str × IDVersion)
    (rs : List Range) (rem : Str) (inf : Option IDVersion)
    (hok : convertId s zbho = .ok out)
    (hloop : convertLoop zbho s none [] = .ok (rs, rem, inf)) :
    ∃ base v2, checkRender rs.reverse none base = .ok v2 := by
  unfold convertId at hok
  by_cases hws : s.any rustWS
  · simp [hws] at hok
  · simp only [hws, Bool.false_eq_true, if_false, ite_false, reduceIte] at hok
    rw [hloop] at hok
    dsimp only at hok
    cases hsp : convertSplit rem with
    | panic => rw [hsp] at hok; simp at hok
    | err m => rw [hsp] at hok; simp at hok
    | ok p =>
      obtain ⟨asm, seq⟩ := p
      rw [hsp] at hok
      dsimp only at hok
      cases asm with
      | some a =>
        dsimp only at hok
        cases hcr : checkRender rs.reverse none (a ++ ':' :: seq) with
        | panic => rw [hcr] at hok; simp at hok
        | err m => rw [hcr] at hok; simp at hok
        | ok v2 => exact ⟨_, v2, hcr⟩
      | none =>
        dsimp only at hok
        cases hcr : checkRender rs.reverse none seq with
        | panic => rw [hcr] at hok; simp at hok
        | err m => rw [hcr] at hok; simp at hok
        | ok v2 => exact ⟨_, v2, hcr⟩

/-- C6 (amended): the range chain peeled and validated by `convert_id`
satisfies the nesting-bounds invariant (outermost-first) whenever the
conversion succeeds.  (The identifier returned by `from_unknown_format` may
contain further ranges re-parsed from leftover sequence text, which are not
checked — see the counterexample.) -/
theorem c6_converter_chain_bounds (s : Str) (zbho : Bool) (out : Str × IDVersion)
    (rs : List Range) (rem : Str) (inf : Option IDVersion)
    (hok : convertId s zbho = .ok out)
    (hloop : convertLoop zbho s none [] = .ok (rs, rem, inf)) :
    BoundsInvariant rs.reverse := by
  rw [boundsInvariant_iff_chain']
  obtain ⟨base, v2, hcr⟩ := convertId_ok_checkRender s zbho out rs rem inf hok hloop
  exact checkRender_ok_chain _ _ _ _ hcr

/-- C7 (amended): every range peeled and validated by `convert_id` has
positive coordinates whenever the conversion succeeds.  (`from_v2` performs
no such check — see the counterexample.) -/
theorem c7_converter_chain_positive (s : Str) (zbho : Bool) (out : Str × IDVersion)
    (rs : List Range) (rem : Str) (inf : Option IDVersion)
    (hok : convertId s zbho = .ok out)
    (hloop : convertLoop zbho s none [] = .ok (rs, rem, inf)) :
    ∀ r ∈ rs, 1 ≤ r.start ∧ 1 ≤ r.end_ := by
  obtain ⟨base, v2, hcr⟩ := convertId_ok_checkRender s zbho out rs rem inf hok hloop
  intro r hr
  exact checkRender_ok_pos _ _ _ _ hcr r (by simpa using hr)

theorem c6_witness :
    convertId (strL "chr_1_100_200_10_20_R") false
      = .ok (strL "chr_1:100-200_+:10-20_-", IDVersion.V0) ∧
    BoundsInvariant ([⟨10, 20, '-'⟩, ⟨100, 200, '+'⟩] : List Range).reverse :=
  ⟨by decide,
   c6_converter_chain_bounds (strL "chr_1_100_200_10_20_R") false
     (strL "chr_1:100-200_+:10-20_-", IDVersion.V0)
     [⟨10, 20, '-'⟩, ⟨100, 200, '+'⟩] (strL "chr_1") (some IDVersion.V0)
     (by decide) (by decide)⟩

theorem c7_witness :
    convertId (strL "chr_1_100_200_10_20_R") false
      = .ok (strL "chr_1:100-200_+:10-20_-", IDVersion.V0) ∧
    ∀ r ∈ ([⟨10, 20, '-'⟩, ⟨100, 200, '+'⟩] : List Range), 1 ≤ r.start ∧ 1 ≤ r.end_ :=
  ⟨by decide,
   c7_converter_chain_positive (strL "chr_1_100_200_10_20_R") false
     (strL "chr_1:100-200_+:10-20_-", IDVersion.V0)
     [⟨10, 20, '-'⟩, ⟨100, 200, '+'⟩] (strL "chr_1") (some IDVersion.V0)
     (by decide) (by decide)⟩

/-! ## The normalizer's fold (C2, C4) -/

/-- The coordinate transformation described by the specification, over the
integers (no truncation): for a reverse ancestor `r`, reflect
(`start' = r.end − start + 1`, `end' = r.end − end + 1`); for a forward
ancestor, shift (`start' = r.start + start − 1`, `end' = r.start + end − 1`).
Written from the spec's words, to be compared with `normFold`. -/
def specFoldZ : List Range → Int × Int → Int × Int
  | [], p => p
  | r :: rest, (s, e) =>
    if r.orientation = '-' then
      specFoldZ rest ((r.end_ : Int) - s + 1, (r.end_ : Int) - e + 1)
    else
      specFoldZ rest ((r.start : Int) + s - 1, (r.start : Int) + e - 1)

/-- On a positive, bounds-respecting ancestor chain, the normalizer's fold
never underflows: it succeeds, and its `Nat` results agree with the
specification's integer formulas. -/
theorem normFold_ok_spec : ∀ (l : List Range) (s e : Nat) (σ : Char),
    (∀ r ∈ l, 1 ≤ r.start ∧ r.start ≤ r.end_) →
    l.Chain' (flip boundsPair) →
    (∀ r0 ∈ l.head?, s ≤ r0.end_ - r0.start + 1 ∧ e ≤ r0.end_ - r0.start + 1) →
    1 ≤ s → 1 ≤ e →
    ∃ s' e' σ', normFold l (s, e, σ) = .ok (s', e', σ') ∧
      ((s' : Int), (e' : Int)) = specFoldZ l ((s : Int), (e : Int)) ∧
      1 ≤ s' ∧ 1 ≤ e' := by
  intro l
  induction l with
  | nil =>
    intro s e σ _ _ _ hs he
    exact ⟨s, e, σ, rfl, rfl, hs, he⟩
  | cons r rest ih =>
    intro s e σ hpos hchain hhd hs he
    have hrpos : 1 ≤ r.start ∧ r.start ≤ r.end_ := hpos r (by simp)
    have hhd' := hhd r (by simp)
    have hlen : s ≤ r.end_ - r.start + 1 ∧ e ≤ r.end_ - r.start + 1 := hhd'
    have hse : s ≤ r.end_ := by omega
    have hee : e ≤ r.end_ := by omega
    have hposrest : ∀ r' ∈ rest, 1 ≤ r'.start ∧ r'.start ≤ r'.end_ :=
      fun r' hr' => hpos r' (by simp [hr'])
    have hchainrest : rest.Chain' (flip boundsPair) := hchain.tail
    have hnext : ∀ r0 ∈ rest.head?, r.end_ ≤ r0.end_ - r0.start + 1 := by
      intro r0 hr0
      exact (List.chain'_cons'.mp hchain).1 r0 hr0
    by_cases hor : r.orientation = '-'
    · -- reflect step
      have hguard : ¬ (s > r.end_ ∨ e > r.end_) := by omega
      obtain ⟨s', e', σ', heq, hspec, hs', he'⟩ :=
        ih (r.end_ - s + 1) (r.end_ - e + 1) (composeOrient r.orientation σ)
          hposrest hchainrest
          (by intro r0 hr0; have := hnext r0 hr0; omega)
          (by omega) (by omega)
      refine ⟨s', e', σ', ?_, ?_, hs', he'⟩
      · rw [hor] at heq
        simp only [normFold, hor, if_true, hguard, if_false, ite_false, reduceIte]
        exact heq
      · rw [hspec]
        simp only [specFoldZ, hor, if_true, reduceIte]
        have h1 : ((r.end_ - s + 1 : Nat) : Int) = (r.end_ : Int) - (s : Int) + 1 := by
          omega
        have h2 : ((r.end_ - e + 1 : Nat) : Int) = (r.end_ : Int) - (e : Int) + 1 := by
          omega
        rw [h1, h2]
    · -- shift step
      have hguard : ¬ (r.start + s = 0 ∨ r.start + e = 0) := by omega
      obtain ⟨s', e', σ', heq, hspec, hs', he'⟩ :=
        ih (r.start + s - 1) (r.start + e - 1) (composeOrient r.orientation σ)
          hposrest hchainrest
          (by intro r0 hr0; have := hnext r0 hr0; omega)
          (by omega) (by omega)
      refine ⟨s', e', σ', ?_, ?_, hs', he'⟩
      · simp only [normFold, hor, if_false, hguard, ite_false, reduceIte]
        exact heq
      · rw [hspec]
        simp only [specFoldZ, hor, if_false, ite_false, reduceIte]
        have h1 : ((r.start + s - 1 : Nat) : Int) = (r.start : Int) + (s : Int) - 1 := by
          omega
        have h2 : ((r.start + e - 1 : Nat) : Int) = (r.start : Int) + (e : Int) - 1 := by
          omega
        rw [h1, h2]

/-- Shared setup for the two normalizer theorems: a well-formed, bounded,
non-empty chain makes `normFold` succeed on the innermost range's state. -/
theorem normalizeId_fold_ok (id : Identifier)
    (hpos : rangePos id.ranges) (hbnd : BoundsInvariant id.ranges)
    (inner : Range) (ancestors : List Range)
    (hrev : id.ranges.reverse = inner :: ancestors) :
    ∃ s' e' σ', normFold ancestors (inner.start, inner.end_, inner.orientation)
        = .ok (s', e', σ') ∧
      ((s' : Int), (e' : Int))
        = specFoldZ ancestors ((inner.start : Int), (inner.end_ : Int)) ∧
      1 ≤ s' ∧ 1 ≤ e' := by
  have hchain0 : id.ranges.Chain' boundsPair := (boundsInvariant_iff_chain' _).mp hbnd
  have hchain : (id.ranges.reverse).Chain' (flip boundsPair) := by
    rw [List.chain'_reverse]
    exact hchain0
  rw [hrev] at hchain
  have hmem : ∀ r ∈ inner :: ancestors, 1 ≤ r.start ∧ r.start ≤ r.end_ := by
    intro r hr
    refine hpos r ?_
    rw [← List.mem_reverse, hrev]
    exact hr
  have hinner := hmem inner (by simp)
  exact normFold_ok_spec ancestors inner.start inner.end_ inner.orientation
    (fun r hr => hmem r (by simp [hr]))
    hchain.tail
    (by
      intro r0 hr0
      have := (List.chain'_cons'.mp hchain).1 r0 hr0
      have hb : inner.end_ ≤ r0.end_ - r0.start + 1 := this
      omega)
    (by omega) (by omega)

/-- C2 (amended): `normalize_id` is total — returns a value, with no
underflow panic — on every identifier whose chain is positive and satisfies
the nesting-bounds invariant (as the converter guarantees for its validated
chains).  The counterexample shows totality fails without the bounds
hypothesis, which `from_v2` does not establish. -/
theorem c2_normalize_total_on_bounded_chains (id : Identifier)
    (hpos : rangePos id.ranges) (hbnd : BoundsInvariant id.ranges) :
    ∃ out, normalizeId id = .ok out := by
  unfold normalizeId
  cases hrev : id.ranges.reverse with
  | nil => exact ⟨_, rfl⟩
  | cons inner ancestors =>
    dsimp only
    obtain ⟨s', e', σ', heq, -, -, -⟩ :=
      normalizeId_fold_ok id hpos hbnd inner ancestors hrev
    rw [heq]
    exact ⟨_, rfl⟩

theorem c2_witness :
    rangePos idScenario.ranges ∧ BoundsInvariant idScenario.ranges ∧
    ∃ out, normalizeId idScenario = .ok out :=
  ⟨by decide, by decide,
   c2_normalize_total_on_bounded_chains idScenario (by decide) (by decide)⟩

/-- C4: on a well-formed non-empty chain the normalizer folds outward from
the innermost range, its coordinates given exactly by the specification's
reflect/shift formulas (`specFoldZ`), and renders the numerically smaller
folded coordinate first. -/
theorem c4_normalize_reflect_shift_render (id : Identifier)
    (hpos : rangePos id.ranges) (hbnd : BoundsInvariant id.ranges)
    (inner : Range) (ancestors : List Range)
    (hrev : id.ranges.reverse = inner :: ancestors) :
    ∃ σ, normalizeId id = .ok (normBase id ++ ':' ::
      (natDigits (min (specFoldZ ancestors ((inner.start : Int), (inner.end_ : Int))).1
                      (specFoldZ ancestors ((inner.start : Int), (inner.end_ : Int))).2).toNat ++
       '-' :: natDigits (max (specFoldZ ancestors ((inner.start : Int), (inner.end_ : Int))).1
                      (specFoldZ ancestors ((inner.start : Int), (inner.end_ : Int))).2).toNat ++
       ['_', σ])) := by
  obtain ⟨s', e', σ', heq, hspec, hs', he'⟩ :=
    normalizeId_fold_ok id hpos hbnd inner ancestors hrev
  have h1 : (specFoldZ ancestors ((inner.start : Int), (inner.end_ : Int))).1 = (s' : Int) := by
    rw [← hspec]
  have h2 : (specFoldZ ancestors ((inner.start : Int), (inner.end_ : Int))).2 = (e' : Int) := by
    rw [← hspec]
  refine ⟨σ', ?_⟩
  unfold normalizeId
  rw [hrev]
  dsimp only
  rw [heq]
  dsimp only
  rw [h1, h2]
  have hminZ : (min (s' : Int) (e' : Int)).toNat = min s' e' := by omega
  have hmaxZ : (max (s' : Int) (e' : Int)).toNat = max s' e' := by omega
  by_cases hlt : s' < e'
  · have hmin : min s' e' = s' := by omega
    have hmax : max s' e' = e' := by omega
    rw [hminZ, hmaxZ, hmin, hmax]
    simp [hlt]
  · have hmin : min s' e' = e' := by omega
    have hmax : max s' e' = s' := by omega
    rw [hminZ, hmaxZ, hmin, hmax]
    simp [hlt]

theorem c4_witness :
    rangePos idScenario.ranges ∧ BoundsInvariant idScenario.ranges ∧
    idScenario.ranges.reverse
      = ⟨1, 5, '+'⟩ :: [⟨10, 50, '-'⟩, ⟨100, 200, '+'⟩] ∧
    (∃ σ, normalizeId idScenario = .ok (normBase idScenario ++ ':' ::
      (natDigits (min (specFoldZ [⟨10, 50, '-'⟩, ⟨100, 200, '+'⟩] ((1 : Int), (5 : Int))).1
                      (specFoldZ [⟨10, 50, '-'⟩, ⟨100, 200, '+'⟩] ((1 : Int), (5 : Int))).2).toNat ++
       '-' :: natDigits (max (specFoldZ [⟨10, 50, '-'⟩, ⟨100, 200, '+'⟩] ((1 : Int), (5 : Int))).1
                      (specFoldZ [⟨10, 50, '-'⟩, ⟨100, 200, '+'⟩] ((1 : Int), (5 : Int))).2).toNat ++
       ['_', σ]))) ∧
    normalizeId idScenario = .ok (strL "hg38:chr1:145-149_-") :=
  ⟨by decide, by decide, by decide,
   c4_normalize_reflect_shift_render idScenario (by decide) (by decide)
     ⟨1, 5, '+'⟩ [⟨10, 50, '-'⟩, ⟨100, 200, '+'⟩] (by decide),
   by decide⟩

/-! ## Digit-string lemmas (towards the render/parse round trip, C9) -/

theorem isDig_digitChar : ∀ d, d < 10 → isDig (digitChar d) = true := by decide

theorem digVal_digitChar : ∀ d, d < 10 → digVal (digitChar d) = d := by decide

theorem natDigits_ne_nil (n : Nat) : natDigits n ≠ [] := by
  rw [natDigits_eq]
  by_cases h : n < 10 <;> simp [h]

theorem natDigits_all_dig : ∀ n, ∀ c ∈ natDigits n, isDig c = true := by
  intro n
  induction n using Nat.strong_induction_on with
  | _ n ih =>
    intro c hc
    rw [natDigits_eq] at hc
    by_cases h : n < 10
    · rw [if_pos h] at hc
      simp at hc
      subst hc
      exact isDig_digitChar n h
    · rw [if_neg h] at hc
      rcases List.mem_append.mp hc with hc | hc
      · exact ih (n / 10) (Nat.div_lt_self (by omega) (by omega)) c hc
      · simp at hc
        subst hc
        exact isDig_digitChar (n % 10) (Nat.mod_lt _ (by omega))

theorem natOfDigits_append_single (l : Str) (c : Char) :
    natOfDigits (l ++ [c]) = natOfDigits l * 10 + digVal c := by
  unfold natOfDigits
  rw [List.foldl_append]
  rfl

theorem natOfDigits_natDigits : ∀ n, natOfDigits (natDigits n) = n := by
  intro n
  induction n using Nat.strong_induction_on with
  | _ n ih =>
    rw [natDigits_eq]
    by_cases h : n < 10
    · rw [if_pos h]
      show natOfDigits ([] ++ [digitChar n]) = n
      rw [natOfDigits_append_single]
      have := digVal_digitChar n h
      simp [natOfDigits, this]
    · rw [if_neg h, natOfDigits_append_single,
          ih (n / 10) (Nat.div_lt_self (by omega) (by omega)),
          digVal_digitChar (n % 10) (Nat.mod_lt _ (by omega))]
      omega

/-- A digit character is none of the grammar's structural characters. -/
theorem isDig_ne (c : Char) (h : isDig c = true) :
    c ≠ ':' ∧ c ≠ '\n' ∧ c ≠ '-' ∧ c ≠ '_' := by
  refine ⟨?_, ?_, ?_, ?_⟩ <;> rintro rfl <;> exact absurd h (by decide)

theorem isDig_dash : isDig '-' = false := by decide

theorem isDig_und : isDig '_' = false := by decide

theorem takeWhile_app (p : Char → Bool) (l m : Str) (h : ∀ c ∈ l, p c = true) :
    (l ++ m).takeWhile p = l ++ m.takeWhile p := by
  induction l with
  | nil => simp
  | cons c r ih =>
    have hc := h c (by simp)
    simp only [List.cons_append, List.takeWhile_cons, hc, if_true, ite_true,
               List.cons.injEq, true_and]
    exact ih (fun c' hc' => h c' (by simp [hc']))

theorem dropWhile_app (p : Char → Bool) (l m : Str) (h : ∀ c ∈ l, p c = true) :
    (l ++ m).dropWhile p = m.dropWhile p := by
  induction l with
  | nil => simp
  | cons c r ih =>
    have hc := h c (by simp)
    simp only [List.cons_append, List.dropWhile_cons, hc, if_true, ite_true]
    exact ih (fun c' hc' => h c' (by simp [hc']))

/-- Lemma: `tailV2` recognizes exactly the canonical rendering of a range tail. -/
theorem tailV2_render (a b : Nat) (σ : Char) (hσ : σ = '+' ∨ σ = '-') :
    tailV2 (natDigits a ++ '-' :: (natDigits b ++ ['_', σ])) = some (a, b, some σ) := by
  have hta : ((natDigits a ++ '-' :: (natDigits b ++ ['_', σ])).takeWhile isDig) = natDigits a := by
    rw [takeWhile_app _ _ _ (natDigits_all_dig a)]
    simp [List.takeWhile_cons, isDig_dash]
  have hda : ((natDigits a ++ '-' :: (natDigits b ++ ['_', σ])).dropWhile isDig)
      = '-' :: (natDigits b ++ ['_', σ]) := by
    rw [dropWhile_app _ _ _ (natDigits_all_dig a)]
    simp [List.dropWhile_cons, isDig_dash]
  have htb : ((natDigits b ++ ['_', σ]).takeWhile isDig) = natDigits b := by
    rw [takeWhile_app _ _ _ (natDigits_all_dig b)]
    simp [List.takeWhile_cons, isDig_und]
  have hdb : ((natDigits b ++ ['_', σ]).dropWhile isDig) = ['_', σ] := by
    rw [dropWhile_app _ _ _ (natDigits_all_dig b)]
    simp [List.dropWhile_cons, isDig_und]
  simp only [tailV2, hta, hda, htb, hdb, if_neg (natDigits_ne_nil a),
             if_neg (natDigits_ne_nil b), if_pos hσ,
             natOfDigits_natDigits]

/-! ## Locating the rightmost range suffix (C9) -/

theorem findSplitV2_none_of_no_colon (l : Str) (h : ':' ∉ l) :
    findSplitV2 l = none := by
  induction l with
  | nil => rfl
  | cons c rest ih =>
    have hc : c ≠ ':' := fun hc => h (by simp [hc])
    have hr : ':' ∉ rest := fun hr => h (by simp [hr])
    simp only [findSplitV2, ih hr, hc, if_false, ite_false, reduceIte]

theorem findSplitV2_append (w : Str) (parts : Nat × Nat × Option Char)
    (hw : tailV2 w = some parts) (hcol : ':' ∉ w) :
    ∀ u, findSplitV2 (u ++ ':' :: w) = some (u, parts) := by
  intro u
  induction u with
  | nil =>
    simp [findSplitV2, findSplitV2_none_of_no_colon w hcol, hw]
  | cons c u' ih =>
    simp only [List.cons_append, findSplitV2, List.append_eq, ih]

theorem findSplitV2_decomp : ∀ (l pre : Str) (parts : Nat × Nat × Option Char),
    findSplitV2 l = some (pre, parts) →
    ∃ w, l = pre ++ ':' :: w ∧ tailV2 w = some parts := by
  intro l
  induction l with
  | nil => intro pre parts h; simp [findSplitV2] at h
  | cons c rest ih =>
    intro pre parts h
    simp only [findSplitV2] at h
    cases hr : findSplitV2 rest with
    | some pp =>
      obtain ⟨p1, p2⟩ := pp
      rw [hr] at h
      simp only [Option.some.injEq, Prod.mk.injEq] at h
      obtain ⟨h1, h2⟩ := h
      obtain ⟨w, hw1, hw2⟩ := ih p1 p2 hr
      subst h1 h2
      exact ⟨w, by rw [hw1, List.cons_append], hw2⟩
    | none =>
      rw [hr] at h
      by_cases hc : c = ':'
      · rw [if_pos hc] at h
        cases ht : tailV2 rest with
        | some parts2 =>
          rw [ht] at h
          simp only [Option.some.injEq, Prod.mk.injEq] at h
          obtain ⟨h1, h2⟩ := h
          subst h1 h2 hc
          exact ⟨rest, rfl, ht⟩
        | none => rw [ht] at h; simp at h
      · rw [if_neg hc] at h
        simp at h

/-- The optional orientation marker recognized by `tailV2` is `'+'` or `'-'`. -/
theorem tailV2_marker (w : Str) (a b : Nat) (σ : Char)
    (h : tailV2 w = some (a, b, some σ)) : σ = '+' ∨ σ = '-' := by
  simp only [tailV2] at h
  split at h
  · simp at h
  · split at h
    · split at h
      · simp at h
      · split at h
        · simp at h
        · split at h
          · rename_i c hc
            simp only [Option.some.injEq, Prod.mk.injEq] at h
            obtain ⟨-, -, h3⟩ := h
            subst h3
            exact hc
          · simp at h
        · simp at h
    · simp at h

theorem nl_not_mem_afterLastNL (l : Str) : '\n' ∉ afterLastNL l := by
  induction l with
  | nil => simp [afterLastNL]
  | cons c r ih =>
    simp only [afterLastNL]
    by_cases h : '\n' ∈ r
    · simpa [h] using ih
    · by_cases hc : c = '\n'
      · simp [h, hc]
      · simp [h, hc]
        exact fun hh => absurd hh.symm hc

theorem afterLastNL_no_nl (l : Str) (h : '\n' ∉ l) : afterLastNL l = l := by
  induction l with
  | nil => rfl
  | cons c r ih =>
    have hc : c ≠ '\n' := fun hc => h (by simp [hc])
    have hr : '\n' ∉ r := fun hr => h (by simp [hr])
    simp [afterLastNL, hr, hc]

/-! ## Characters of rendered suffixes (C9) -/

/-- The tail rendered for a range (everything after its `':'`). -/
def renderTail (r : Range) : Str :=
  natDigits r.start ++ '-' :: (natDigits r.end_ ++ ['_', r.orientation])

theorem renderRange_eq (r : Range) : renderRange r = ':' :: renderTail r := by
  simp [renderRange, renderTail]

theorem renderTail_no_colon (r : Range)
    (hσ : r.orientation = '+' ∨ r.orientation = '-') : ':' ∉ renderTail r := by
  intro hmem
  unfold renderTail at hmem
  rcases List.mem_append.mp hmem with hm | hm
  · exact (isDig_ne _ (natDigits_all_dig _ _ hm)).1 rfl
  · rcases List.mem_cons.mp hm with hm | hm
    · exact absurd hm.symm (by decide)
    · rcases List.mem_append.mp hm with hm | hm
      · exact (isDig_ne _ (natDigits_all_dig _ _ hm)).1 rfl
      · rcases List.mem_cons.mp hm with hm | hm
        · exact absurd hm.symm (by decide)
        · simp at hm
          rcases hσ with hσ | hσ <;> rw [← hm] at hσ <;> exact absurd hσ (by decide)

theorem renderRange_no_nl (r : Range)
    (hσ : r.orientation = '+' ∨ r.orientation = '-') : '\n' ∉ renderRange r := by
  intro hmem
  rw [renderRange_eq] at hmem
  rcases List.mem_cons.mp hmem with hm | hm
  · exact absurd hm.symm (by decide)
  · unfold renderTail at hm
    rcases List.mem_append.mp hm with hm | hm
    · exact (isDig_ne _ (natDigits_all_dig _ _ hm)).2.1 rfl
    · rcases List.mem_cons.mp hm with hm | hm
      · exact absurd hm.symm (by decide)
      · rcases List.mem_append.mp hm with hm | hm
        · exact (isDig_ne _ (natDigits_all_dig _ _ hm)).2.1 rfl
        · rcases List.mem_cons.mp hm with hm | hm
          · exact absurd hm.symm (by decide)
          · simp at hm
            rcases hσ with hσ | hσ <;> rw [← hm] at hσ <;> exact absurd hσ (by decide)

theorem rangesRender_no_nl (l : List Range)
    (hwf : ∀ r ∈ l, r.orientation = '+' ∨ r.orientation = '-') :
    '\n' ∉ rangesRender l := by
  induction l with
  | nil => simp [rangesRender]
  | cons r rest ih =>
    intro hmem
    unfold rangesRender at hmem
    rcases List.mem_append.mp hmem with hm | hm
    · exact renderRange_no_nl r (hwf r (by simp)) hm
    · exact ih (fun r' hr' => hwf r' (by simp [hr'])) hm

theorem rangesRender_append (l : List Range) (r : Range) :
    rangesRender (l ++ [r]) = rangesRender l ++ renderRange r := by
  induction l with
  | nil => simp [rangesRender]
  | cons x rest ih => simp [rangesRender, ih]

/-! ## Peeling a rendered chain recovers it (C9) -/

theorem peelV2_render (l : List Range)
    (hwf : ∀ r ∈ l, r.start ≤ r.end_ ∧ (r.orientation = '+' ∨ r.orientation = '-')) :
    ∀ u acc, '\n' ∉ u → findSplitV2 u = none →
    peelV2 (u ++ rangesRender l) acc = .ok (acc ++ l.reverse, u) := by
  induction l using List.reverseRecOn with
  | nil =>
    intro u acc hnl hns
    show peelV2 (u ++ []) acc = .ok (acc ++ [], u)
    rw [List.append_nil, List.append_nil, peelV2_eq, afterLastNL_no_nl u hnl, hns]
  | append_singleton l' r ih =>
    intro u acc hnl hns
    have hrwf := hwf r (by simp)
    have hl'wf : ∀ r' ∈ l', r'.start ≤ r'.end_ ∧ (r'.orientation = '+' ∨ r'.orientation = '-') :=
      fun r' hr' => hwf r' (by simp [hr'])
    have hnl2 : '\n' ∉ u ++ rangesRender l' := by
      intro hmem
      rcases List.mem_append.mp hmem with hm | hm
      · exact hnl hm
      · exact rangesRender_no_nl l' (fun r' hr' => (hl'wf r' hr').2) hm
    have hnl3 : '\n' ∉ (u ++ rangesRender l') ++ ':' :: renderTail r := by
      intro hmem
      rcases List.mem_append.mp hmem with hm | hm
      · exact hnl2 hm
      · rw [← renderRange_eq] at hm
        exact renderRange_no_nl r hrwf.2 hm
    have hsplit : findSplitV2 ((u ++ rangesRender l') ++ ':' :: renderTail r)
        = some (u ++ rangesRender l', (r.start, r.end_, some r.orientation)) := by
      apply findSplitV2_append
      · unfold renderTail
        exact tailV2_render r.start r.end_ r.orientation hrwf.2
      · exact renderTail_no_colon r hrwf.2
    rw [rangesRender_append, renderRange_eq, ← List.append_assoc]
    rw [peelV2_eq, afterLastNL_no_nl _ hnl3, hsplit]
    dsimp only
    rw [if_neg (by omega : ¬ r.start > r.end_)]
    have hr_eta : (⟨r.start, r.end_, r.orientation⟩ : Range) = r := rfl
    rw [hr_eta, ih hl'wf u (acc ++ [r]) hnl hns]
    simp

/-! ## Analysis of a successful peel (C9) -/

theorem peelV2_ok_props : ∀ (n : Nat) (s : Str), s.length ≤ n →
    ∀ acc rs t, peelV2 s acc = .ok (rs, t) →
    (∃ l2, rs = acc ++ l2 ∧
      ∀ r ∈ l2, r.start ≤ r.end_ ∧ (r.orientation = '+' ∨ r.orientation = '-')) ∧
    findSplitV2 (afterLastNL t) = none ∧
    ((rs = acc ∧ t = s) ∨ '\n' ∉ t) := by
  intro n
  induction n using Nat.strong_induction_on with
  | _ n ih =>
    intro s hs acc rs t hok
    rw [peelV2_eq] at hok
    cases hm : findSplitV2 (afterLastNL s) with
    | none =>
      rw [hm] at hok
      simp only [PResult.ok.injEq, Prod.mk.injEq] at hok
      obtain ⟨h1, h2⟩ := hok
      subst h1 h2
      exact ⟨⟨[], by simp, by simp⟩, hm, Or.inl ⟨rfl, rfl⟩⟩
    | some v =>
      obtain ⟨pre, a, b, mk⟩ := v
      rw [hm] at hok
      cases mk with
      | none => simp at hok
      | some σ =>
        dsimp only at hok
        by_cases hab : a > b
        · simp [hab] at hok
        · rw [if_neg hab] at hok
          have hlt : pre.length < s.length :=
            Nat.lt_of_lt_of_le (findSplitV2_length hm) (afterLastNL_length_le s)
          have hσ : σ = '+' ∨ σ = '-' := by
            obtain ⟨w, -, hw⟩ := findSplitV2_decomp _ _ _ hm
            exact tailV2_marker w a b σ hw
          obtain ⟨⟨l2, hrs, hwf⟩, hterm, hdis⟩ :=
            ih pre.length (by omega) pre (le_refl _) _ rs t hok
          have hprenl : '\n' ∉ pre := by
            intro hmem
            obtain ⟨w, hw1, -⟩ := findSplitV2_decomp _ _ _ hm
            exact nl_not_mem_afterLastNL s (by rw [hw1]; simp [hmem])
          refine ⟨⟨⟨a, b, σ⟩ :: l2, ?_, ?_⟩, hterm, ?_⟩
          · rw [hrs]; simp
          · intro r hr
            rcases List.mem_cons.mp hr with rfl | hr
            · exact ⟨show a ≤ b by omega, hσ⟩
            · exact hwf r hr
          · rcases hdis with ⟨-, h2⟩ | h2
            · subst h2; exact Or.inr hprenl
            · exact Or.inr h2

/-! ## Splitting on `':'` (C9) -/

theorem splitColon_ne_nil (t : Str) : splitColon t ≠ [] := by
  cases t with
  | nil => simp [splitColon]
  | cons c r =>
    simp only [splitColon]
    cases splitColon r with
    | nil => simp
    | cons h tl => by_cases hc : c = ':' <;> simp [hc]

theorem splitColon_one : ∀ (t x : Str), splitColon t = [x] → t = x := by
  intro t
  induction t with
  | nil =>
    intro x h
    simp only [splitColon, List.cons.injEq] at h
    exact h.1
  | cons c r ih =>
    intro x h
    simp only [splitColon] at h
    cases hsp : splitColon r with
    | nil => exact absurd hsp (splitColon_ne_nil r)
    | cons hh tl =>
      rw [hsp] at h
      dsimp only at h
      by_cases hc : c = ':'
      · rw [if_pos hc] at h
        simp at h
      · rw [if_neg hc] at h
        simp only [List.cons.injEq] at h
        obtain ⟨h1, h2⟩ := h
        subst h2
        rw [← h1, ih hh hsp]

theorem splitColon_two : ∀ (t x y : Str), splitColon t = [x, y] → t = x ++ ':' :: y := by
  intro t
  induction t with
  | nil => intro x y h; simp [splitColon] at h
  | cons c r ih =>
    intro x y h
    simp only [splitColon] at h
    cases hsp : splitColon r with
    | nil => exact absurd hsp (splitColon_ne_nil r)
    | cons hh tl =>
      rw [hsp] at h
      dsimp only at h
      by_cases hc : c = ':'
      · rw [if_pos hc] at h
        simp only [List.cons.injEq] at h
        obtain ⟨h1, h2, h3⟩ := h
        subst h3
        rw [← h1, ← h2, hc, splitColon_one r hh hsp]
        rfl
      · rw [if_neg hc] at h
        simp only [List.cons.injEq] at h
        obtain ⟨h1, h2⟩ := h
        cases tl with
        | nil => simp at h2
        | cons y' tl' =>
          simp only [List.cons.injEq] at h2
          obtain ⟨h2a, h2b⟩ := h2
          subst h2b
          rw [← h1, ← h2a, ih hh y' hsp]
          simp

/-- A successful `parseSplit` reconstructs its input text. -/
theorem parseSplit_recover (t : Str) (asm : Option Str) (q : Str)
    (h : parseSplit t = .ok (asm, q)) :
    (match asm with
     | some a => a ++ ':' :: q
     | none => q) = t ∧ q ≠ [] := by
  unfold parseSplit at h
  rcases hsp : splitColon t with _ | ⟨x, _ | ⟨y, _ | ⟨z, rest⟩⟩⟩ <;> rw [hsp] at h
  · simp at h
  · dsimp only at h
    by_cases hx : x = []
    · simp [hx] at h
    · rw [if_neg hx] at h
      simp only [PResult.ok.injEq, Prod.mk.injEq] at h
      obtain ⟨h1, h2⟩ := h
      subst h1
      subst h2
      exact ⟨(splitColon_one t x hsp).symm, hx⟩
  · dsimp only at h
    by_cases hy : y = []
    · simp [hy] at h
    · rw [if_neg hy] at h
      simp only [PResult.ok.injEq, Prod.mk.injEq] at h
      obtain ⟨h1, h2⟩ := h
      subst h1
      subst h2
      exact ⟨(splitColon_two t x y hsp).symm, hy⟩
  · simp at h

/-! ## C9: render/parse round trip -/

/-- C9: any identifier produced by a successful `parse_id` call re-parses
from its canonical rendering to a structurally equal identifier. -/
theorem c9_parse_render_roundtrip (s : Str) (id : Identifier)
    (h : parseId s = .ok id) : parseId (renderId id) = .ok id := by
  unfold parseId at h
  cases hp : peelV2 s [] with
  | panic => rw [hp] at h; simp at h
  | err m => rw [hp] at h; simp at h
  | ok pr =>
    obtain ⟨rs, t⟩ := pr
    rw [hp] at h
    dsimp only at h
    cases hq : parseSplit t with
    | panic => rw [hq] at h; simp at h
    | err m => rw [hq] at h; simp at h
    | ok aq =>
      obtain ⟨asm, q⟩ := aq
      rw [hq] at h
      dsimp only at h
      have hid : id = ⟨asm, q, rs.reverse, IDVersion.V2⟩ := by
        simp only [PResult.ok.injEq] at h
        exact h.symm
      obtain ⟨⟨l2, hrs, hwf0⟩, hterm, hdis⟩ :=
        peelV2_ok_props s.length s (le_refl _) [] rs t hp
      rw [List.nil_append] at hrs
      subst hrs
      have hwf : ∀ r ∈ rs, r.start ≤ r.end_ ∧ (r.orientation = '+' ∨ r.orientation = '-') :=
        hwf0
      obtain ⟨hbase, hqne⟩ := parseSplit_recover t asm q hq
      have hrender : renderId id = t ++ rangesRender rs.reverse := by
        rw [hid]
        unfold renderId
        cases asm with
        | some a =>
          dsimp only at hbase ⊢
          rw [← hbase]
          simp
        | none =>
          dsimp only at hbase ⊢
          rw [← hbase]
          simp
      rw [hrender]
      by_cases hrs0 : rs = []
      · subst hrs0
        rw [show rangesRender (([] : List Range)).reverse = [] from rfl, List.append_nil]
        unfold parseId
        rw [peelV2_eq, hterm]
        dsimp only
        rw [hq]
        dsimp only
        rw [hid]
      · have hnl : '\n' ∉ t := by
          rcases hdis with ⟨h1, -⟩ | h2
          · exact absurd h1 hrs0
          · exact h2
        have hterm' : findSplitV2 t = none := by
          rw [← afterLastNL_no_nl t hnl]
          exact hterm
        have hpeel := peelV2_render rs.reverse
          (fun r hr => hwf r (List.mem_reverse.mp hr)) t [] hnl hterm'
        rw [List.reverse_reverse, List.nil_append] at hpeel
        unfold parseId
        rw [hpeel]
        dsimp only
        rw [hq]
        dsimp only
        rw [hid]

theorem c9_witness :
    parseId (strL "hg38:chr1:100-200_+:10-50_-:1-5_+") = .ok idScenario ∧
    parseId (renderId idScenario) = .ok idScenario :=
  ⟨by decide,
   c9_parse_render_roundtrip (strL "hg38:chr1:100-200_+:10-50_-:1-5_+")
     idScenario (by decide)⟩

end Smitten
